import Mathlib

/-!
Formal model of the `wcm-scanner` TypeScript repository.

The development shallowly embeds the repository's five source files:

* `src/utilities/utilities.ts` (`firstDefinedProperty`, `pruneVersionString`),
* `src/filesystem/filesystem.ts` (`listInstalledDependencies`,
  `readDependenciesJson`, `extractFolderNamesSync`, `filterDotFiles`, ...),
* `src/inspection/inspection.ts` (`inspectSourceFiles`, `getMetadataForFile`,
  `readFileAtPath`),
* `src/scanner.ts` (`registerImpliedDependencies`, `getDependencyMetadata`,
  `getAllDependencyPairs`, ...).

External collaborators are embedded as follows.  Node's `path.resolve`
(posix) and JavaScript string primitives (`String.prototype.replace`,
`String.prototype.split`, regexes used by the code) are modelled directly
from their ECMAScript semantics.  The filesystem (`fs-promise`) and the
markup loader (`cheerio`) are abstracted as function parameters, matching
the spec's "external collaborator" contracts.  The `@ctek/wcm-graph`
`DependencyGraph` is not part of this repository's sources, so it is
modelled from the spec (see the doc comments marked "Modelled from the
spec").  JavaScript objects are modelled as association lists whose order
is the object's property-enumeration order.
-/

namespace WcmScanner

/-! ## Node `path` (posix) model -/

/-- `String.prototype.split(sep)` for the one-character separator `"/"`,
acting on the string's character list.  `split` of the empty string is
`[[]]`, matching JavaScript's `"".split("/") = [""]`. -/
def splitSlash : List Char → List (List Char)
  | [] => [[]]
  | c :: rest =>
    match splitSlash rest with
    | [] => [[]]
    | h :: t => if c = '/' then [] :: h :: t else (c :: h) :: t

/-- Join path components with `'/'` separators (the inverse of
`splitSlash` on slash-free components). -/
def joinSlash : List (List Char) → List Char
  | [] => []
  | [p] => p
  | p :: ps => p ++ '/' :: joinSlash ps

/-- One step of Node's `normalizeStringPosix`: process a single path
component against the stack of components accumulated so far.  `""` and
`"."` are skipped; `".."` pops the last real component, and is kept only
when normalizing a relative path (`allowAboveRoot`) that has already run
out of components to pop. -/
def normStep (allowAboveRoot : Bool) (acc : List (List Char)) (comp : List Char) : List (List Char) :=
  if comp = [] || comp = ['.'] then acc
  else if comp = ['.', '.'] then
    if !acc.isEmpty && acc.getLast? != some ['.', '.'] then acc.dropLast
    else if allowAboveRoot then acc ++ [comp]
    else acc
  else acc ++ [comp]

/-- Node's absoluteness test `path.charCodeAt(0) === 47`: the first
character, when there is one, is a slash. -/
def isAbsolutePath (s : String) : Bool :=
  match s.data with
  | c :: _ => c = '/'
  | [] => false

/-- The right-to-left accumulation loop of Node's `posix.resolve`:
walk the segments from the last one backwards, prepending
`segment ++ "/"`, and stop at the first (rightmost) absolute segment.
Empty segments are skipped.  Returns the accumulated string and whether
an absolute segment was reached. -/
def gatherSegments : List String → String × Bool
  | [] => ("", false)
  | seg :: rest =>
    match gatherSegments rest with
    | (acc, true) => (acc, true)
    | (acc, false) =>
      if seg = "" then (acc, false)
      else (seg ++ "/" ++ acc, isAbsolutePath seg)

/-- The path accumulated by `gatherSegments`, with the process working
directory `cwd` prepended when no segment was absolute, exactly as in
Node (where `process.cwd()` is always an absolute path); paired with the
final absoluteness flag. -/
def resolvedPair (cwd : String) (segments : List String) : String × Bool :=
  let g := gatherSegments segments
  if g.2 then (g.1, true)
  else if cwd = "" then (g.1, false)
  else (cwd ++ "/" ++ g.1, isAbsolutePath cwd)

/-- Node's `path.resolve` (posix) over a list of segments: gather the
segments (and `cwd`), normalize the components, and render. -/
def posixResolve (cwd : String) (segments : List String) : String :=
  let full := resolvedPair cwd segments
  let parts := (splitSlash full.1.data).foldl (normStep (!full.2)) []
  if full.2 then ⟨'/' :: joinSlash parts⟩
  else if parts = [] then "." else ⟨joinSlash parts⟩

/-! ## `src/utilities/utilities.ts` and the Ramda primitives it uses -/

/-- Ramda's `uniq`, with the set of already-emitted elements made
explicit: keep each element's first occurrence. -/
def uniqFirstAux (seen : List String) : List String → List String
  | [] => []
  | x :: xs =>
    if seen.contains x then uniqFirstAux seen xs
    else x :: uniqFirstAux (seen ++ [x]) xs

/-- Ramda's `uniq`: keep the first occurrence of each element. -/
def uniqFirst (l : List String) : List String := uniqFirstAux [] l

/-- Ramda's `intersection(list1, list2)`: the shorter list is filtered by
membership in the longer one (ties filter `list1`), then deduplicated
keeping first occurrences.  The result order therefore follows the
shorter input's order. -/
def ramdaIntersection (list1 list2 : List String) : List String :=
  if list1.length > list2.length then uniqFirst (list2.filter (fun y => list1.contains y))
  else uniqFirst (list1.filter (fun y => list2.contains y))

/-- A manifest field value as read by the scanner: either a string (the
`name` / `version` / `_release` fields) or a nested object of string
values (the `dependencies` map). -/
inductive ManifestValue where
  | vstr : String → ManifestValue
  | vobj : List (String × String) → ManifestValue
  deriving DecidableEq, Repr

/-- A parsed manifest JSON object: its fields in property-enumeration
order.  This is the `DependencyJson` type of `filesystem.ts`. -/
abbrev DependencyJson := List (String × ManifestValue)

/-- JavaScript property access `obj[k]` on an object modelled as an
association list (`undefined` becomes `none`). -/
def jsLookup (k : String) (obj : DependencyJson) : Option ManifestValue :=
  (obj.find? (fun e => e.1 == k)).map (fun e => e.2)

/-- `firstDefinedProperty` from `utilities.ts`:
`prop(compose(head, curry(intersection)(props), keys)(obj), obj)`.
`head` of an empty list is `undefined` in Ramda, and `prop` of an
`undefined` key yields `undefined`; both are modelled as `none`. -/
def firstDefinedProperty (props : List String) (obj : DependencyJson) : Option ManifestValue :=
  match (ramdaIntersection props (obj.map Prod.fst)).head? with
  | some k => jsLookup k obj
  | none => none

/-- `\d` of the JavaScript regex: an ASCII decimal digit. -/
def isDigitCh (c : Char) : Bool := '0' ≤ c && c ≤ '9'

/-- `.` of the JavaScript regex (no `s` flag): any character that is not
a line terminator. -/
def isDotCh (c : Char) : Bool :=
  !(c = '\n' || c = '\r' || c = Char.ofNat 0x2028 || c = Char.ofNat 0x2029)

/-- The end-anchored tail `((\d.)?(\d.)?)?\d$` of the version regex in
`pruneVersionString`, matched against an exact character suffix.  Each
optional group `(\d.)` consumes a digit plus one arbitrary character, so
a successful match consumes exactly 1, 3 or 5 characters with digits at
the even offsets. -/
def matchVersionTail : List Char → Bool
  | [d] => isDigitCh d
  | [d1, c1, d2] => isDigitCh d1 && isDotCh c1 && isDigitCh d2
  | [d1, c1, d2, c2, d3] =>
    isDigitCh d1 && isDotCh c1 && isDigitCh d2 && isDotCh c2 && isDigitCh d3
  | _ => false

/-- The alternatives of the optional range-operator group
`(\^|~|<|>|(<|>)=)?` of the version regex. -/
def rangeOps : List (List Char) := [['^'], ['~'], ['<'], ['>'], ['<', '='], ['>', '=']]

/-- The second regex alternative `(\^|~|<|>|(<|>)=)?((\d.)?(\d.)?)?\d$`,
tested against an exact suffix of the subject (the `$` anchor forces any
match to extend to the end of the string, so only existence matters). -/
def matchVersionAlt (l : List Char) : Bool :=
  matchVersionTail l ||
    rangeOps.any (fun op => op.isPrefixOf l && matchVersionTail (l.drop op.length))

/-- `RegExp.prototype.exec` for `/(\*)|(\^|~|<|>|(<|>)=)?((\d.)?(\d.)?)?\d$/`:
scan positions left to right; at each position alternative 1 (`\*`)
matches a literal star, and alternative 2 — being `$`-anchored — matches
the whole remaining suffix whenever `matchVersionAlt` holds of it.
`none` models a `null` result (on which the source's `[0]` access would
throw). -/
def execVersionRegex : List Char → Option (List Char)
  | [] => none
  | c :: rest =>
    if c = '*' then some ['*']
    else if matchVersionAlt (c :: rest) then some (c :: rest)
    else execVersionRegex rest

/-- `pruneVersionString` from `utilities.ts`:
`/(\*)|(\^|~|<|>|(<|>)=)?((\d.)?(\d.)?)?\d$/.exec(version)[0]`. -/
def pruneVersionString (version : String) : Option String :=
  (execVersionRegex version.data).map (fun l => ⟨l⟩)

/-! ## `src/filesystem/filesystem.ts`

The filesystem collaborators (`fs-promise`'s `readdir`, `statSync`,
`readJson`) are abstracted as function parameters, per the spec's
external-interface contracts. -/

/-- The `IProjectOptions` / `IDependencyOptions` configuration object.
`packageManager` is a `String` because the code's `default:` switch
branch handles arbitrary runtime values beyond the `"bower" | "npm"`
type annotation. -/
structure IProjectOptions where
  projectPath : String
  packageManager : String
  deriving DecidableEq, Repr

/-- `listDirectoryContents` / `listDirectoryChildren`:
`readdir(directoryPath).then(map(curryN(2, resolve)(directoryPath)))`,
with `readdirF` the abstracted `readdir` collaborator. -/
def listDirectoryContents (readdirF : String → List String) (cwd directoryPath : String) : List String :=
  (readdirF directoryPath).map (fun name => posixResolve cwd [directoryPath, name])

/-- `extractFoldersSync`: `paths.filter((item) => statSync(item).isDirectory())`,
with `isDirectory` the abstracted `statSync(...).isDirectory()` collaborator. -/
def extractFoldersSync (isDirectory : String → Bool) (paths : List String) : List String :=
  paths.filter isDirectory

/-- `last` composed with `split(sep)` as in `extractPathEndingsSync`.
`splitSlash` never returns an empty list, so the `[]` default standing
in for Ramda's `undefined` is unreachable. -/
def pathEnding (p : String) : String :=
  ⟨(splitSlash p.data).getLastD []⟩

/-- `extractPathEndingsSync`: `paths.map(pipe(split(sep), last))`. -/
def extractPathEndingsSync (paths : List String) : List String :=
  paths.map pathEnding

/-- The `\w` character class of the regex `/^\w/`: ASCII letters,
digits and underscore. -/
def isWordChar (c : Char) : Bool :=
  ('a' ≤ c && c ≤ 'z') || ('A' ≤ c && c ≤ 'Z') || ('0' ≤ c && c ≤ '9') || c = '_'

/-- `test(/^\w/)`: the string's first character is a word character. -/
def startsWithWordChar (s : String) : Bool :=
  match s.data with
  | [] => false
  | c :: _ => isWordChar c

/-- `filterDotFiles`: `filter(test(/^\w/), filenames)`. -/
def filterDotFiles (filenames : List String) : List String :=
  filenames.filter startsWithWordChar

/-- `extractFolderNamesSync`:
`pipe(extractFoldersSync, extractPathEndingsSync, filterDotFiles)(paths)`. -/
def extractFolderNamesSync (isDirectory : String → Bool) (paths : List String) : List String :=
  filterDotFiles (extractPathEndingsSync (extractFoldersSync isDirectory paths))

/-- `listInstalledDependencies`: switch on `opts.packageManager`, scan
the package manager's dependencies directory, or throw
`Error("A 'packageManager' must be supplied")` (modelled as `.error`). -/
def listInstalledDependencies (isDirectory : String → Bool) (readdirF : String → List String)
    (cwd : String) (opts : IProjectOptions) : Except String (List String) :=
  if opts.packageManager = "bower" then
    .ok (extractFolderNamesSync isDirectory
      (listDirectoryContents readdirF cwd (posixResolve cwd [opts.projectPath, "bower_components"])))
  else if opts.packageManager = "npm" then
    .ok (extractFolderNamesSync isDirectory
      (listDirectoryContents readdirF cwd (posixResolve cwd [opts.projectPath, "node_modules"])))
  else
    .error "A \x27packageManager\x27 must be supplied"

/-- `readBowerJson`: `readJson(resolve(projectPath, ".bower.json"))`,
with `readJson` the abstracted JSON-file reader collaborator. -/
def readBowerJson (readJson : String → DependencyJson) (cwd projectPath : String) : DependencyJson :=
  readJson (posixResolve cwd [projectPath, ".bower.json"])

/-- `readPackageJson`: `readJson(resolve(projectPath, "package.json"))`. -/
def readPackageJson (readJson : String → DependencyJson) (cwd projectPath : String) : DependencyJson :=
  readJson (posixResolve cwd [projectPath, "package.json"])

/-- `readDependencyBowerJson`. -/
def readDependencyBowerJson (readJson : String → DependencyJson) (cwd projectPath : String) :
    String → DependencyJson :=
  fun dependencyName =>
    readBowerJson readJson cwd (posixResolve cwd [projectPath, "bower_components", dependencyName])

/-- `readDependencyPackageJson`. -/
def readDependencyPackageJson (readJson : String → DependencyJson) (cwd projectPath : String) :
    String → DependencyJson :=
  fun dependencyName =>
    readPackageJson readJson cwd (posixResolve cwd [projectPath, "node_modules", dependencyName])

/-- `readDependenciesJson`: switch on `opts.packageManager`, returning
the per-dependency manifest reader or throwing
`Error("A 'packageManager' must be supplied")`. -/
def readDependenciesJson (readJson : String → DependencyJson) (cwd : String)
    (opts : IProjectOptions) : Except String (String → DependencyJson) :=
  if opts.packageManager = "bower" then
    .ok (readDependencyBowerJson readJson cwd opts.projectPath)
  else if opts.packageManager = "npm" then
    .ok (readDependencyPackageJson readJson cwd opts.projectPath)
  else
    .error "A \x27packageManager\x27 must be supplied"

/-! ## `src/inspection/inspection.ts`

`cheerio`'s `load` is abstracted as a function from file contents to the
document's elements in document order; `$(tagName).toArray()` selects
the elements with that tag name and `link.attribs[attributeName]` reads
an attribute. -/

/-- The `IInspectionOptions` configuration object.  The two maps are
association lists in the objects' property-enumeration order. -/
structure IInspectionOptions where
  entryPath : String
  sourceRoot : String
  importResolutions : List (String × String)
  importTags : List (String × String)
  deriving DecidableEq, Repr

/-- The `importDetails` record of an `IImportDeclaration`. -/
structure IImportDetails where
  tagName : String
  attributeName : String
  deriving DecidableEq, Repr

/-- `IImportDeclaration`. -/
structure IImportDeclaration where
  importPath : String
  importDetails : IImportDetails
  deriving DecidableEq, Repr

/-- `IFileMetadata`. -/
structure IFileMetadata where
  filePath : String
  importDeclarations : List IImportDeclaration
  deriving DecidableEq, Repr

/-- An element of the loaded markup document, as `cheerio` exposes it:
a tag name and the attribute map. -/
structure MarkupElement where
  tagName : String
  attribs : List (String × String)
  deriving DecidableEq, Repr

/-- Find the character-list split of `l` at the first occurrence of
`pat`: `some (pre, suf)` with `l = pre ++ pat ++ suf` and `pre`
shortest possible, or `none` when `pat` does not occur. -/
def firstOccurrence? (pat : List Char) : List Char → Option (List Char × List Char)
  | [] => if pat = [] then some ([], []) else none
  | c :: rest =>
    if pat.isPrefixOf (c :: rest) then some ([], (c :: rest).drop pat.length)
    else (firstOccurrence? pat rest).map (fun pr => (c :: pr.1, pr.2))

/-- ECMAScript `GetSubstitution` for a string (non-regex) pattern:
expand `$$`, `$&` (the matched string), `$` + backquote (the portion
before the match) and `$` + quote (the portion after the match) in the
replacement; any other `$` sequence is literal. -/
def getSubstitution (matched before after : List Char) : List Char → List Char
  | [] => []
  | c :: rest =>
    if c = '$' then
      match rest with
      | [] => ['$']
      | c2 :: rest2 =>
        if c2 = '$' then '$' :: getSubstitution matched before after rest2
        else if c2 = '&' then matched ++ getSubstitution matched before after rest2
        else if c2 = Char.ofNat 96 then before ++ getSubstitution matched before after rest2
        else if c2 = Char.ofNat 39 then after ++ getSubstitution matched before after rest2
        else '$' :: getSubstitution matched before after (c2 :: rest2)
    else c :: getSubstitution matched before after rest

/-- `String.prototype.replace(searchString, replaceString)`: replace
only the first occurrence of `searchString`, applying `GetSubstitution`
to the replacement; return the string unchanged when the pattern does
not occur. -/
def jsReplace (s pat rep : String) : String :=
  match firstOccurrence? pat.data s.data with
  | none => s
  | some pr => ⟨pr.1 ++ getSubstitution pat.data pr.1 pr.2 rep.data ++ pr.2⟩

/-- The substitution loop of `getMetadataForFile`: for each
`(pathPlaceholder, replacingValue)` pair of `importResolutions`, in
order, `attributeValue = attributeValue.replace(placeholder, value)`. -/
def substituteAll (importResolutions : List (String × String)) (attributeValue : String) : String :=
  importResolutions.foldl (fun acc pr => jsReplace acc pr.1 pr.2) attributeValue

/-- `getMetadataForFile` (markup-processing part): for every
`(tagName, attributeName)` pair of `importTags`, select every element
with that tag name, read the attribute, skip falsy (absent or empty)
values, apply the placeholder substitutions, resolve against
`sourceRoot`, and collect an `IImportDeclaration` per hit. -/
def getMetadataForFile (cwd : String) (opts : IInspectionOptions) (filePath : String)
    (doc : List MarkupElement) : IFileMetadata :=
  { filePath := filePath
    importDeclarations :=
      opts.importTags.flatMap (fun tagPair =>
        (doc.filter (fun e => e.tagName == tagPair.1)).filterMap (fun link =>
          match (link.attribs.find? (fun a => a.1 == tagPair.2)).map (fun a => a.2) with
          | none => none
          | some attributeValue =>
            if attributeValue = "" then none
            else some
              { importPath :=
                  posixResolve cwd [opts.sourceRoot, substituteAll opts.importResolutions attributeValue]
                importDetails := { tagName := tagPair.1, attributeName := tagPair.2 } })) }

/-- `readFileAtPath`: throw `Error('File not found at path "..."')` when
`existsSync` fails, otherwise read the file.  The filesystem is the
`fileContents` collaborator (`none` = the path does not exist). -/
def readFileAtPath (fileContents : String → Option String) (filePath : String) :
    Except String String :=
  match fileContents filePath with
  | none => .error ("File not found at path \"" ++ filePath ++ "\"")
  | some contents => .ok contents

/-- The per-file analysis of `getMetadataForFile` including its
`readFileAtPath` / `load` prelude (`loadMarkup` abstracts `cheerio.load`). -/
def getMetadataForFileE (fileContents : String → Option String)
    (loadMarkup : String → List MarkupElement) (cwd : String) (opts : IInspectionOptions)
    (filePath : String) : Except String IFileMetadata :=
  match readFileAtPath fileContents filePath with
  | .error e => .error e
  | .ok contents => .ok (getMetadataForFile cwd opts filePath (loadMarkup contents))

/-- `inspectSourceFiles`: the generator yields exactly one pending
analysis, for `resolve(opts.sourceRoot, opts.entryPath)`. -/
def inspectSourceFiles (fileContents : String → Option String)
    (loadMarkup : String → List MarkupElement) (cwd : String) (opts : IInspectionOptions) :
    List (Except String IFileMetadata) :=
  [getMetadataForFileE fileContents loadMarkup cwd opts
    (posixResolve cwd [opts.sourceRoot, opts.entryPath])]

/-! ## `src/scanner.ts` and the `@ctek/wcm-graph` `DependencyGraph`

The `DependencyGraph` class lives in the external `@ctek/wcm-graph`
package, whose sources are not part of this repository; its operations
are modelled from the spec's data model (§3) and glossary. -/

/-- `IBaseDependencyMetadata` / `IDependencyMetadata` as built by
`getDependencyMetadata`: both fields are raw JavaScript property reads
and may be `undefined` (`none`). -/
structure IBaseDependencyMetadata where
  name : Option ManifestValue
  version : Option ManifestValue
  deriving DecidableEq, Repr

/-- Modelled from the spec: the `@ctek/wcm-graph` `DependencyGraph`
state — real nodes (metadata plus owned manifest) in registration order
and implied nodes (bare `(name, version)` identities). -/
structure DependencyGraph where
  realNodes : List (IBaseDependencyMetadata × DependencyJson)
  impliedNodes : List (String × String)
  deriving DecidableEq, Repr

/-- Modelled from the spec: `DependencyGraph.addRealDependency` registers
a real node carrying its manifest. -/
def addRealDependency (g : DependencyGraph) (meta : IBaseDependencyMetadata)
    (json : DependencyJson) : DependencyGraph :=
  { g with realNodes := g.realNodes ++ [(meta, json)] }

/-- Modelled from the spec: `DependencyGraph.addImpliedDependency`.  The
`DependencyIdentity` `(name, version)` "acts as the graph node key"
(spec §3), so adding an identity that is already present leaves the
graph unchanged — repeated implied requests must not duplicate the node. -/
def addImpliedDependency (g : DependencyGraph) (name version : String) : DependencyGraph :=
  if (name, version) ∈ g.impliedNodes then g
  else { g with impliedNodes := g.impliedNodes ++ [(name, version)] }

/-- Modelled from the spec: `DependencyGraph.getDependencyAliases` — the
alias set of a name is "the set of version strings already registered as
real nodes under that name" (spec §3 and glossary). -/
def getDependencyAliases (g : DependencyGraph) (name : String) : List (Option ManifestValue) :=
  (g.realNodes.filter (fun r => r.1.name = some (ManifestValue.vstr name))).map
    (fun r => r.1.version)

/-- `getDependencyMetadata` from `scanner.ts`:
`{ name: dependencyJson.name, version: firstDefinedProperty(["version", "_release"])(dependencyJson) }`. -/
def getDependencyMetadata (dependencyJson : DependencyJson) : IBaseDependencyMetadata :=
  { name := jsLookup "name" dependencyJson
    version := firstDefinedProperty ["version", "_release"] dependencyJson }

/-- Ramda's `toPairs` applied to the value of a `dependencies` field:
an object yields its pairs in enumeration order; a string yields its
indexed characters (`for..in` over a boxed string); `undefined` yields
no pairs. -/
def toPairsOfValue : Option ManifestValue → List (String × String)
  | some (ManifestValue.vobj ps) => ps
  | some (ManifestValue.vstr s) => s.data.enum.map (fun p => (toString p.1, ⟨[p.2]⟩))
  | none => []

/-- `getDependencyPairs`: `toPairs(prop("dependencies", dependencyJson))`. -/
def getDependencyPairs (dependencyJson : DependencyJson) : List (String × String) :=
  toPairsOfValue (jsLookup "dependencies" dependencyJson)

/-- `getAllDependencyPairs`: the declared `(name, versionRange)` pairs of
every registered node's manifest, concatenated in registration order
(`compose(unnest, map(compose(getDependencyPairs, getDependencyData)))`
over `listDependencies()`). -/
def getAllDependencyPairs (g : DependencyGraph) : List (String × String) :=
  g.realNodes.flatMap (fun r => getDependencyPairs r.2)

/-- `registerDeclaredDependencies`: register one real node per installed
manifest, in order. -/
def registerDeclaredDependencies (jsons : List DependencyJson) : DependencyGraph :=
  jsons.foldl (fun g j => addRealDependency g (getDependencyMetadata j) j) ⟨[], []⟩

/-- The body of the `registerImpliedDependencies` loop:
`if (!contains(version, dependencyGraph.getDependencyAliases(name)))
dependencyGraph.addImpliedDependency({ name, version })`.  The declared
version string is compared against the alias set with Ramda's
value-equality `contains`. -/
def impliedStep (g : DependencyGraph) (p : String × String) : DependencyGraph :=
  if some (ManifestValue.vstr p.2) ∈ getDependencyAliases g p.1 then g
  else addImpliedDependency g p.1 p.2

/-- `registerImpliedDependencies`: iterate the (eagerly computed) list of
all declared dependency pairs, registering an implied node for every
pair whose version string is not an alias of its name. -/
def registerImpliedDependencies (g : DependencyGraph) : DependencyGraph :=
  (getAllDependencyPairs g).foldl impliedStep g

/-! ## Helper lemmas -/

theorem firstOccurrence_split {pat l pre suf : List Char}
    (h : firstOccurrence? pat l = some (pre, suf)) : l = pre ++ pat ++ suf := by
  induction l generalizing pre with
  | nil =>
    unfold firstOccurrence? at h
    split at h
    · next hp =>
      obtain ⟨rfl, rfl⟩ := Prod.mk.injEq .. ▸ Option.some.injEq .. ▸ h
      simp [hp]
    · exact absurd h (by simp)
  | cons c rest ih =>
    unfold firstOccurrence? at h
    split at h
    · next hp =>
      obtain ⟨rfl, rfl⟩ := Prod.mk.injEq .. ▸ Option.some.injEq .. ▸ h
      have := List.prefix_iff_eq_append.mp (List.isPrefixOf_iff_prefix.mp hp)
      simpa using this.symm
    · match hrec : firstOccurrence? pat rest with
      | none => rw [hrec] at h; exact absurd h (by simp)
      | some (pre', suf') =>
        rw [hrec] at h
        obtain ⟨rfl, rfl⟩ := Prod.mk.injEq .. ▸ Option.some.injEq .. ▸ h
        simpa using ih hrec

theorem firstOccurrence_min {pat l pre suf : List Char}
    (h : firstOccurrence? pat l = some (pre, suf)) :
    ∀ pre2 suf2 : List Char, l = pre2 ++ pat ++ suf2 → pre.length ≤ pre2.length := by
  induction l generalizing pre with
  | nil =>
    intro pre2 suf2 _
    unfold firstOccurrence? at h
    split at h
    · obtain ⟨rfl, rfl⟩ := Prod.mk.injEq .. ▸ Option.some.injEq .. ▸ h
      simp
    · exact absurd h (by simp)
  | cons c rest ih =>
    intro pre2 suf2 hsplit
    unfold firstOccurrence? at h
    split at h
    · obtain ⟨rfl, rfl⟩ := Prod.mk.injEq .. ▸ Option.some.injEq .. ▸ h
      simp
    · next hp =>
      match hrec : firstOccurrence? pat rest with
      | none => rw [hrec] at h; exact absurd h (by simp)
      | some (pre', suf') =>
        rw [hrec] at h
        obtain ⟨rfl, rfl⟩ := Prod.mk.injEq .. ▸ Option.some.injEq .. ▸ h
        match pre2 with
        | [] =>
          exfalso
          apply hp
          refine List.isPrefixOf_iff_prefix.mpr ⟨pat.drop pat.length ++ suf2, ?_⟩
          simpa using hsplit.symm
        | c2 :: pre2' =>
          simp only [List.cons_append, List.cons.injEq] at hsplit
          simpa using ih hrec pre2' suf2 hsplit.2

theorem getSubstitution_no_dollar (m b a : List Char) {r : List Char} (h : '$' ∉ r) :
    getSubstitution m b a r = r := by
  induction r with
  | nil => rfl
  | cons c rest ih =>
    have hc : c ≠ '$' := fun hh => h (hh ▸ List.mem_cons_self c rest)
    have hrest : '$' ∉ rest := fun hh => h (List.mem_cons_of_mem c hh)
    rw [getSubstitution.eq_def]
    simp only [if_neg hc]
    exact congrArg (c :: ·) (ih hrest)

/-! ## Claim theorems -/

/-- C3: the spec claims `pruneVersionString` strips leading range
operators (`"^1.2.3"` to `"1.2.3"`, `"~2.0"` to `"2.0"`, `"*"` to
`"*"`).  The code disagrees on the first two inputs: the regex's
optional operator group sits inside the overall match and
`exec(version)[0]` returns the full match, so the operator is kept.
This theorem evaluates the code at the claim's inputs. -/
theorem claim_C3 :
    pruneVersionString "^1.2.3" = some "^1.2.3" ∧
    pruneVersionString "~2.0" = some "~2.0" ∧
    pruneVersionString "*" = some "*" := by
  refine ⟨?_, ?_, ?_⟩ <;> decide

/-- C5: end-to-end import resolution for the single
`<link rel="import" href="/bower_components/x-elem/x-elem.html">`
element with `importTags = {link: href}`,
`importResolutions = {"/bower_components": "../../bower_components"}`
and `sourceRoot = "/proj/build/public"`: inspection yields exactly one
`ImportDeclaration` whose `importPath` is
`"/proj/bower_components/x-elem/x-elem.html"`. -/
theorem claim_C5 :
    inspectSourceFiles
      (fun p => if p = "/proj/build/public/index.html"
        then some "<link rel=\"import\" href=\"/bower_components/x-elem/x-elem.html\">" else none)
      (fun _ => [⟨"link", [("rel", "import"), ("href", "/bower_components/x-elem/x-elem.html")]⟩])
      "/"
      ⟨"index.html", "/proj/build/public",
        [("/bower_components", "../../bower_components")], [("link", "href")]⟩ =
    [Except.ok
      ⟨"/proj/build/public/index.html",
        [⟨"/proj/bower_components/x-elem/x-elem.html", ⟨"link", "href"⟩⟩]⟩] := by
  rfl

/-- C7: when the resolved entry path does not exist, inspection fails
with the file-not-found error, independently of the markup loader (so
before any parsing), and produces no `FileMetadata`. -/
theorem claim_C7 (fileContents : String → Option String)
    (loadMarkup : String → List MarkupElement) (cwd : String) (opts : IInspectionOptions)
    (h : fileContents (posixResolve cwd [opts.sourceRoot, opts.entryPath]) = none) :
    inspectSourceFiles fileContents loadMarkup cwd opts =
      [Except.error
        ("File not found at path \"" ++ posixResolve cwd [opts.sourceRoot, opts.entryPath] ++ "\"")] := by
  simp [inspectSourceFiles, getMetadataForFileE, readFileAtPath, h]

/-- Witness for C7 at a concrete missing entry file. -/
theorem claim_C7_witness :
    ((fun _ : String => (none : Option String))
        (posixResolve "/" [(⟨"index.html", "/proj", [], []⟩ : IInspectionOptions).sourceRoot,
          (⟨"index.html", "/proj", [], []⟩ : IInspectionOptions).entryPath]) = none) ∧
    inspectSourceFiles (fun _ => none) (fun _ => []) "/" ⟨"index.html", "/proj", [], []⟩ =
      [Except.error "File not found at path \"/proj/index.html\""] :=
  ⟨rfl, (claim_C7 (fun _ => none) (fun _ => []) "/" ⟨"index.html", "/proj", [], []⟩ rfl).trans
    (by rfl)⟩

/-- C8: for a `packageManager` that is neither `"bower"` nor `"npm"`,
both `listInstalledDependencies` and `readDependenciesJson` fail with
`Error("A 'packageManager' must be supplied")`, independently of every
filesystem collaborator (so before any I/O). -/
theorem claim_C8 (opts : IProjectOptions) (hb : opts.packageManager ≠ "bower")
    (hn : opts.packageManager ≠ "npm") :
    (∀ (isDirectory : String → Bool) (readdirF : String → List String) (cwd : String),
      listInstalledDependencies isDirectory readdirF cwd opts =
        .error "A \x27packageManager\x27 must be supplied") ∧
    (∀ (readJson : String → DependencyJson) (cwd : String),
      readDependenciesJson readJson cwd opts =
        .error "A \x27packageManager\x27 must be supplied") := by
  constructor <;> intros <;> simp [listInstalledDependencies, readDependenciesJson, hb, hn]

/-- Witness for C8 at `packageManager = "yarn"`. -/
theorem claim_C8_witness :
    ((⟨"/proj", "yarn"⟩ : IProjectOptions).packageManager ≠ "bower" ∧
     (⟨"/proj", "yarn"⟩ : IProjectOptions).packageManager ≠ "npm") ∧
    listInstalledDependencies (fun _ => true) (fun _ => []) "/" ⟨"/proj", "yarn"⟩ =
      .error "A \x27packageManager\x27 must be supplied" ∧
    readDependenciesJson (fun _ => []) "/" ⟨"/proj", "yarn"⟩ =
      .error "A \x27packageManager\x27 must be supplied" :=
  ⟨⟨by decide, by decide⟩,
    (claim_C8 ⟨"/proj", "yarn"⟩ (by decide) (by decide)).1 (fun _ => true) (fun _ => []) "/",
    (claim_C8 ⟨"/proj", "yarn"⟩ (by decide) (by decide)).2 (fun _ => []) "/"⟩

/-- C10: the inspector's substitution step (`attributeValue.replace`)
replaces only the first occurrence of a placeholder: wherever the
pattern occurs, the string splits as `pre ++ pat ++ suf` with `pre`
minimal, and the replacement result is `pre ++ rep ++ suf` — the whole
suffix, including every later occurrence of the placeholder, is kept
unchanged. -/
theorem claim_C10 (s pat rep : String) (pre suf : List Char)
    (hocc : firstOccurrence? pat.data s.data = some (pre, suf))
    (hrep : '$' ∉ rep.data) :
    s.data = pre ++ pat.data ++ suf ∧
    (∀ pre2 suf2 : List Char, s.data = pre2 ++ pat.data ++ suf2 → pre.length ≤ pre2.length) ∧
    (jsReplace s pat rep).data = pre ++ rep.data ++ suf := by
  refine ⟨firstOccurrence_split hocc, firstOccurrence_min hocc, ?_⟩
  rw [jsReplace, hocc]
  simp [getSubstitution_no_dollar _ _ _ hrep]

/-- Witness for C10 on `"/b/x/b/y".replace("/b", "../c")`: the second
`"/b"` occurrence survives in the suffix. -/
theorem claim_C10_witness :
    firstOccurrence? "/b".data "/b/x/b/y".data = some ([], "/x/b/y".data) ∧
    '$' ∉ "../c".data ∧
    ("/b/x/b/y".data = [] ++ "/b".data ++ "/x/b/y".data ∧
     (∀ pre2 suf2 : List Char,
        "/b/x/b/y".data = pre2 ++ "/b".data ++ suf2 → List.length ([] : List Char) ≤ pre2.length) ∧
     (jsReplace "/b/x/b/y" "/b" "../c").data = [] ++ "../c".data ++ "/x/b/y".data) :=
  ⟨by decide, by decide, claim_C10 "/b/x/b/y" "/b" "../c" [] "/x/b/y".data (by decide) (by decide)⟩

theorem realNodes_impliedStep (g : DependencyGraph) (p : String × String) :
    (impliedStep g p).realNodes = g.realNodes := by
  unfold impliedStep addImpliedDependency
  split
  · rfl
  · split <;> rfl

theorem aliases_impliedStep (g : DependencyGraph) (p : String × String) (n : String) :
    getDependencyAliases (impliedStep g p) n = getDependencyAliases g n := by
  unfold getDependencyAliases
  rw [realNodes_impliedStep]

theorem implied_mem_impliedStep {q : String × String} (g : DependencyGraph) (p : String × String)
    (h : q ∈ g.impliedNodes) : q ∈ (impliedStep g p).impliedNodes := by
  unfold impliedStep addImpliedDependency
  split
  · exact h
  · split
    · exact h
    · exact List.mem_append_left _ h

theorem implied_mem_foldl {q : String × String} (l : List (String × String)) :
    ∀ g : DependencyGraph, q ∈ g.impliedNodes → q ∈ (l.foldl impliedStep g).impliedNodes := by
  induction l with
  | nil => intro g h; exact h
  | cons p rest ih =>
    intro g h
    exact ih (impliedStep g p) (implied_mem_impliedStep g p h)

theorem implied_mem_foldl_of_pair (name version : String) (l : List (String × String)) :
    ∀ g : DependencyGraph, (name, version) ∈ l →
    some (ManifestValue.vstr version) ∉ getDependencyAliases g name →
    (name, version) ∈ (l.foldl impliedStep g).impliedNodes := by
  induction l with
  | nil => intro g h; exact absurd h (List.not_mem_nil _)
  | cons p rest ih =>
    intro g hmem halias
    rcases List.mem_cons.mp hmem with heq | htail
    · subst heq
      apply implied_mem_foldl rest
      unfold impliedStep
      rw [if_neg halias]
      unfold addImpliedDependency
      split
      · next hin => exact hin
      · exact List.mem_append_right _ (List.mem_singleton.mpr rfl)
    · exact ih (impliedStep g p) htail ((aliases_impliedStep g p name) ▸ halias)

/-- C1: after real registration, every declared `(name, versionRange)`
pair of every registered node whose version-range string is not an alias
of that name gets an implied node `(name, versionRange)` registered —
string equality being the only satisfaction test. -/
theorem claim_C1 (g : DependencyGraph) (name version : String)
    (hpair : (name, version) ∈ getAllDependencyPairs g)
    (halias : some (ManifestValue.vstr version) ∉ getDependencyAliases g name) :
    (name, version) ∈ (registerImpliedDependencies g).impliedNodes :=
  implied_mem_foldl_of_pair name version (getAllDependencyPairs g) g hpair halias

/-- Witness for C1 at the spec's own example: `A` declares
`B: "^2.0.0"`, the installed `B` manifest reports `"2.3.1"`; the real
node `(B, "2.3.1")` does not satisfy the range string, and the implied
node `(B, "^2.0.0")` is created. -/
theorem claim_C1_witness :
    (("B", "^2.0.0") ∈ getAllDependencyPairs (registerDeclaredDependencies
        [[("name", ManifestValue.vstr "A"), ("version", ManifestValue.vstr "1.0.0"),
          ("dependencies", ManifestValue.vobj [("B", "^2.0.0")])],
         [("name", ManifestValue.vstr "B"), ("version", ManifestValue.vstr "2.3.1")]]) ∧
     some (ManifestValue.vstr "^2.0.0") ∉ getDependencyAliases (registerDeclaredDependencies
        [[("name", ManifestValue.vstr "A"), ("version", ManifestValue.vstr "1.0.0"),
          ("dependencies", ManifestValue.vobj [("B", "^2.0.0")])],
         [("name", ManifestValue.vstr "B"), ("version", ManifestValue.vstr "2.3.1")]]) "B" ∧
     some (ManifestValue.vstr "2.3.1") ∈ getDependencyAliases (registerDeclaredDependencies
        [[("name", ManifestValue.vstr "A"), ("version", ManifestValue.vstr "1.0.0"),
          ("dependencies", ManifestValue.vobj [("B", "^2.0.0")])],
         [("name", ManifestValue.vstr "B"), ("version", ManifestValue.vstr "2.3.1")]]) "B") ∧
    ("B", "^2.0.0") ∈ (registerImpliedDependencies (registerDeclaredDependencies
        [[("name", ManifestValue.vstr "A"), ("version", ManifestValue.vstr "1.0.0"),
          ("dependencies", ManifestValue.vobj [("B", "^2.0.0")])],
         [("name", ManifestValue.vstr "B"), ("version", ManifestValue.vstr "2.3.1")]])).impliedNodes :=
  ⟨⟨by decide, by decide, by decide⟩, claim_C1 _ "B" "^2.0.0" (by decide) (by decide)⟩

theorem implied_foldl_inv (g0 : DependencyGraph) (l : List (String × String)) :
    ∀ g : DependencyGraph,
    (∀ n, getDependencyAliases g n = getDependencyAliases g0 n) →
    (∀ p ∈ g.impliedNodes, some (ManifestValue.vstr p.2) ∉ getDependencyAliases g0 p.1) →
    g.impliedNodes.Nodup →
    (∀ p ∈ (l.foldl impliedStep g).impliedNodes,
      some (ManifestValue.vstr p.2) ∉ getDependencyAliases g0 p.1) ∧
    (l.foldl impliedStep g).impliedNodes.Nodup := by
  induction l with
  | nil => intro g _ hmem hnd; exact ⟨hmem, hnd⟩
  | cons p rest ih =>
    intro g hal hmem hnd
    refine ih (impliedStep g p) (fun n => (aliases_impliedStep g p n).trans (hal n)) ?_ ?_
    · intro q hq
      unfold impliedStep at hq
      split at hq
      · exact hmem q hq
      · next hcond =>
        unfold addImpliedDependency at hq
        split at hq
        · exact hmem q hq
        · rcases List.mem_append.mp hq with hold | hnew
          · exact hmem q hold
          · have : q = (p.1, p.2) := List.mem_singleton.mp hnew
            subst this
            exact (hal p.1) ▸ hcond
    · unfold impliedStep
      split
      · exact hnd
      · unfold addImpliedDependency
        split
        · exact hnd
        · next hnin =>
          have := List.Nodup.concat hnin hnd
          simpa using this

/-- C6: starting from the post-registration state (no implied nodes
yet), every implied node the resolver registers has a version string
that is not the exact version of any real node of that name, and the
implied-node list stays duplicate-free even when the same `(name,
version)` pair is requested repeatedly. -/
theorem claim_C6 (g : DependencyGraph) (himp : g.impliedNodes = []) :
    (∀ p ∈ (registerImpliedDependencies g).impliedNodes,
      some (ManifestValue.vstr p.2) ∉ getDependencyAliases g p.1) ∧
    (registerImpliedDependencies g).impliedNodes.Nodup := by
  unfold registerImpliedDependencies
  exact implied_foldl_inv g (getAllDependencyPairs g) g (fun _ => rfl)
    (by rw [himp]; intro p hp; exact absurd hp (List.not_mem_nil p))
    (by rw [himp]; exact List.nodup_nil)

/-- Witness for C6: two distinct real nodes both declare `b: "^2.0.0"`;
the resulting graph holds the implied node `(b, "^2.0.0")` exactly once. -/
theorem claim_C6_witness :
    ((registerDeclaredDependencies
        [[("name", ManifestValue.vstr "a1"), ("version", ManifestValue.vstr "1"),
          ("dependencies", ManifestValue.vobj [("b", "^2.0.0")])],
         [("name", ManifestValue.vstr "a2"), ("version", ManifestValue.vstr "1"),
          ("dependencies", ManifestValue.vobj [("b", "^2.0.0")])]]).impliedNodes = []) ∧
    ((registerImpliedDependencies (registerDeclaredDependencies
        [[("name", ManifestValue.vstr "a1"), ("version", ManifestValue.vstr "1"),
          ("dependencies", ManifestValue.vobj [("b", "^2.0.0")])],
         [("name", ManifestValue.vstr "a2"), ("version", ManifestValue.vstr "1"),
          ("dependencies", ManifestValue.vobj [("b", "^2.0.0")])]])).impliedNodes =
      [("b", "^2.0.0")]) ∧
    (∀ p ∈ (registerImpliedDependencies (registerDeclaredDependencies
        [[("name", ManifestValue.vstr "a1"), ("version", ManifestValue.vstr "1"),
          ("dependencies", ManifestValue.vobj [("b", "^2.0.0")])],
         [("name", ManifestValue.vstr "a2"), ("version", ManifestValue.vstr "1"),
          ("dependencies", ManifestValue.vobj [("b", "^2.0.0")])]])).impliedNodes,
      some (ManifestValue.vstr p.2) ∉ getDependencyAliases (registerDeclaredDependencies
        [[("name", ManifestValue.vstr "a1"), ("version", ManifestValue.vstr "1"),
          ("dependencies", ManifestValue.vobj [("b", "^2.0.0")])],
         [("name", ManifestValue.vstr "a2"), ("version", ManifestValue.vstr "1"),
          ("dependencies", ManifestValue.vobj [("b", "^2.0.0")])]]) p.1) ∧
    (registerImpliedDependencies (registerDeclaredDependencies
        [[("name", ManifestValue.vstr "a1"), ("version", ManifestValue.vstr "1"),
          ("dependencies", ManifestValue.vobj [("b", "^2.0.0")])],
         [("name", ManifestValue.vstr "a2"), ("version", ManifestValue.vstr "1"),
          ("dependencies", ManifestValue.vobj [("b", "^2.0.0")])]])).impliedNodes.Nodup :=
  ⟨by decide, by decide,
    (claim_C6 _ (by decide)).1,
    (claim_C6 _ (by decide)).2⟩

theorem jsLookup_of_nodup (json : DependencyJson) (k : String) (val : ManifestValue)
    (hnd : (json.map Prod.fst).Nodup) (h : (k, val) ∈ json) : jsLookup k json = some val := by
  induction json with
  | nil => exact absurd h (List.not_mem_nil _)
  | cons e rest ih =>
    simp only [List.map_cons, List.nodup_cons] at hnd
    rcases List.mem_cons.mp h with heq | htail
    · subst heq
      simp [jsLookup]
    · by_cases hk : e.1 = k
      · exact absurd (hk ▸ List.mem_map_of_mem Prod.fst htail) hnd.1
      · unfold jsLookup
        rw [List.find?_cons_of_neg _ (by simpa using hk)]
        exact ih hnd.2 htail

/-- C2: a manifest carrying both a `version` and a `_release` field
resolves, via `firstDefinedProperty(["version", "_release"])`, to the
`version` value — first-match precedence, independent of the manifest's
own key order. -/
theorem claim_C2 (json : DependencyJson) (v : String) (w : ManifestValue)
    (hnd : (json.map Prod.fst).Nodup)
    (hv : ("version", ManifestValue.vstr v) ∈ json)
    (hw : ("_release", w) ∈ json) :
    (getDependencyMetadata json).version = some (ManifestValue.vstr v) := by
  have hkv : "version" ∈ json.map Prod.fst := List.mem_map_of_mem Prod.fst hv
  have hkw : "_release" ∈ json.map Prod.fst := List.mem_map_of_mem Prod.fst hw
  have hsub : (["version", "_release"] : List String) ⊆ json.map Prod.fst := by
    intro a ha
    rcases List.mem_cons.mp ha with rfl | ha2
    · exact hkv
    rcases List.mem_cons.mp ha2 with rfl | ha3
    · exact hkw
    · exact absurd ha3 (List.not_mem_nil a)
  have hlen : (["version", "_release"] : List String).length ≤ (json.map Prod.fst).length :=
    (List.Nodup.subperm (by decide) hsub).length_le
  show firstDefinedProperty ["version", "_release"] json = some (ManifestValue.vstr v)
  unfold firstDefinedProperty ramdaIntersection
  rw [if_neg (by simpa using hlen)]
  have hfil : (["version", "_release"] : List String).filter
      (fun y => (json.map Prod.fst).contains y) = ["version", "_release"] := by
    simp [List.filter_cons, hkv, hkw]
  rw [hfil]
  show jsLookup "version" json = some (ManifestValue.vstr v)
  exact jsLookup_of_nodup json "version" (ManifestValue.vstr v) hnd hv

/-- Witness for C2 at a manifest holding `version: "1.0.0"` and
`_release: "1.0.0-release"`. -/
theorem claim_C2_witness :
    (([("name", ManifestValue.vstr "B"), ("version", ManifestValue.vstr "1.0.0"),
       ("_release", ManifestValue.vstr "1.0.0-release")] : DependencyJson).map Prod.fst).Nodup ∧
    ("version", ManifestValue.vstr "1.0.0") ∈
      ([("name", ManifestValue.vstr "B"), ("version", ManifestValue.vstr "1.0.0"),
        ("_release", ManifestValue.vstr "1.0.0-release")] : DependencyJson) ∧
    ("_release", ManifestValue.vstr "1.0.0-release") ∈
      ([("name", ManifestValue.vstr "B"), ("version", ManifestValue.vstr "1.0.0"),
        ("_release", ManifestValue.vstr "1.0.0-release")] : DependencyJson) ∧
    (getDependencyMetadata
      [("name", ManifestValue.vstr "B"), ("version", ManifestValue.vstr "1.0.0"),
       ("_release", ManifestValue.vstr "1.0.0-release")]).version =
      some (ManifestValue.vstr "1.0.0") :=
  ⟨by decide, by decide, by decide,
    claim_C2 _ "1.0.0" (ManifestValue.vstr "1.0.0-release") (by decide) (by decide) (by decide)⟩

theorem resolvedPair_snd (cwd : String) (segments : List String)
    (hcwd : isAbsolutePath cwd = true) : (resolvedPair cwd segments).2 = true := by
  have hcne : cwd ≠ "" := by
    intro he
    rw [he] at hcwd
    exact absurd hcwd (by decide)
  unfold resolvedPair
  cases hg2 : (gatherSegments segments).2 <;> simp [hg2, hcne, hcwd]

theorem isAbsolutePath_posixResolve (cwd : String) (segments : List String)
    (hcwd : isAbsolutePath cwd = true) :
    isAbsolutePath (posixResolve cwd segments) = true := by
  simp only [posixResolve]
  rw [resolvedPair_snd cwd segments hcwd]
  simp [isAbsolutePath]

/-- C4 (amended): every `ImportDeclaration` produced by the inspector
has an `importPath` equal to resolving the placeholder-substituted
attribute value against the configured source root, and that path is
absolute.  (The original claim's "contains no placeholder key" part is
refuted by `claim_C4_counterexample`: substitution replaces only first
occurrences, so a placeholder can survive into the resolved path.) -/
theorem claim_C4 (cwd : String) (opts : IInspectionOptions) (filePath : String)
    (doc : List MarkupElement) (hcwd : isAbsolutePath cwd = true) :
    ∀ d ∈ (getMetadataForFile cwd opts filePath doc).importDeclarations,
      (∃ attributeValue : String, attributeValue ≠ "" ∧
        d.importPath = posixResolve cwd
          [opts.sourceRoot, substituteAll opts.importResolutions attributeValue]) ∧
      isAbsolutePath d.importPath = true := by
  intro d hd
  simp only [getMetadataForFile, List.mem_flatMap] at hd
  obtain ⟨tagPair, _, hd2⟩ := hd
  rw [List.mem_filterMap] at hd2
  obtain ⟨link, _, hsome⟩ := hd2
  cases hattr : (link.attribs.find? (fun a => a.1 == tagPair.2)).map (fun a => a.2) with
  | none =>
    rw [hattr] at hsome
    exact absurd hsome (by simp)
  | some v =>
    rw [hattr] at hsome
    dsimp only at hsome
    by_cases hv : v = ""
    · rw [if_pos hv] at hsome
      exact absurd hsome (by simp)
    · rw [if_neg hv] at hsome
      have hde := Option.some.inj hsome
      subst hde
      exact ⟨⟨v, hv, rfl⟩, isAbsolutePath_posixResolve cwd _ hcwd⟩

/-- Counterexample to C4 as stated: with the resolutions map
`{"/bower_components": "../../bower_components"}` and an attribute value
containing the placeholder twice, the constructed `importPath` still
contains the placeholder key `"/bower_components"`. -/
theorem claim_C4_counterexample :
    ((getMetadataForFile "/"
        ⟨"index.html", "/proj/build/public",
          [("/bower_components", "../../bower_components")], [("link", "href")]⟩
        "/proj/build/public/index.html"
        [⟨"link", [("href", "/bower_components/a/bower_components/b.html")]⟩]).importDeclarations.map
      (fun d => d.importPath) = ["/proj/bower_components/a/bower_components/b.html"]) ∧
    (firstOccurrence? "/bower_components".data
      "/proj/bower_components/a/bower_components/b.html".data).isSome = true := by
  exact ⟨rfl, by decide⟩

/-- Witness for C4 (amended) at the counterexample's configuration. -/
theorem claim_C4_witness :
    isAbsolutePath "/" = true ∧
    (∀ d ∈ (getMetadataForFile "/"
        ⟨"index.html", "/proj/build/public",
          [("/bower_components", "../../bower_components")], [("link", "href")]⟩
        "/proj/build/public/index.html"
        [⟨"link", [("href", "/bower_components/a/bower_components/b.html")]⟩]).importDeclarations,
      (∃ attributeValue : String, attributeValue ≠ "" ∧
        d.importPath = posixResolve "/"
          [(⟨"index.html", "/proj/build/public",
              [("/bower_components", "../../bower_components")],
              [("link", "href")]⟩ : IInspectionOptions).sourceRoot,
            substituteAll [("/bower_components", "../../bower_components")] attributeValue]) ∧
      isAbsolutePath d.importPath = true) :=
  ⟨by decide,
    claim_C4 "/"
      ⟨"index.html", "/proj/build/public",
        [("/bower_components", "../../bower_components")], [("link", "href")]⟩
      "/proj/build/public/index.html"
      [⟨"link", [("href", "/bower_components/a/bower_components/b.html")]⟩] (by decide)⟩

theorem splitSlash_ne_nil (l : List Char) : splitSlash l ≠ [] := by
  induction l with
  | nil => simp [splitSlash]
  | cons c rest ih =>
    rcases hs : splitSlash rest with _ | ⟨h, t⟩
    · exact absurd hs ih
    · unfold splitSlash
      rw [hs]
      dsimp only
      split <;> simp

theorem splitSlash_cons_eq (c : Char) (rest : List Char) {h : List Char} {t : List (List Char)}
    (hs : splitSlash rest = h :: t) :
    splitSlash (c :: rest) = if c = '/' then [] :: h :: t else (c :: h) :: t := by
  unfold splitSlash
  rw [hs]

theorem mem_splitSlash_no_slash (l : List Char) : ∀ p ∈ splitSlash l, '/' ∉ p := by
  induction l with
  | nil =>
    intro p hp
    simp only [splitSlash, List.mem_singleton] at hp
    simp [hp]
  | cons c rest ih =>
    intro p hp
    rcases hs : splitSlash rest with _ | ⟨h, t⟩
    · exact absurd hs (splitSlash_ne_nil rest)
    · rw [splitSlash_cons_eq c rest hs] at hp
      by_cases hc : c = '/'
      · rw [if_pos hc] at hp
        rcases List.mem_cons.mp hp with rfl | hp2
        · simp
        · exact ih p (hs ▸ hp2)
      · rw [if_neg hc] at hp
        rcases List.mem_cons.mp hp with rfl | hp2
        · intro hmem
          rcases List.mem_cons.mp hmem with heq | hmem2
          · exact hc heq.symm
          · exact ih h (hs ▸ List.mem_cons_self h t) hmem2
        · exact ih p (hs ▸ List.mem_cons_of_mem h hp2)

theorem splitSlash_append_slash (a b : List Char) :
    splitSlash (a ++ '/' :: b) = splitSlash a ++ splitSlash b := by
  induction a with
  | nil =>
    rcases hb : splitSlash b with _ | ⟨hb1, tb⟩
    · exact absurd hb (splitSlash_ne_nil b)
    · simp only [List.nil_append]
      rw [splitSlash_cons_eq '/' b hb, if_pos rfl]
      rfl
  | cons c a' ih =>
    simp only [List.cons_append]
    rcases hsa : splitSlash a' with _ | ⟨h, t⟩
    · exact absurd hsa (splitSlash_ne_nil a')
    · have hs2 : splitSlash (a' ++ '/' :: b) = h :: (t ++ splitSlash b) := by
        rw [ih, hsa]
        rfl
      rw [splitSlash_cons_eq c _ hs2, splitSlash_cons_eq c a' hsa]
      by_cases hc : c = '/'
      · rw [if_pos hc, if_pos hc]
        simp
      · rw [if_neg hc, if_neg hc]
        simp

theorem splitSlash_of_no_slash (a : List Char) (h : '/' ∉ a) : splitSlash a = [a] := by
  induction a with
  | nil => rfl
  | cons c rest ih =>
    have hc : c ≠ '/' := fun hh => h (hh ▸ List.mem_cons_self c rest)
    have hrest : '/' ∉ rest := fun hh => h (List.mem_cons_of_mem c hh)
    rw [splitSlash_cons_eq c rest (ih hrest), if_neg hc]

theorem splitSlash_joinSlash (parts : List (List Char)) (hne : parts ≠ [])
    (hns : ∀ p ∈ parts, '/' ∉ p) : splitSlash (joinSlash parts) = parts := by
  induction parts with
  | nil => exact absurd rfl hne
  | cons p ps ih =>
    cases ps with
    | nil =>
      simp only [joinSlash]
      exact splitSlash_of_no_slash p (hns p (List.mem_singleton.mpr rfl))
    | cons q qs =>
      have : joinSlash (p :: q :: qs) = p ++ '/' :: joinSlash (q :: qs) := rfl
      rw [this, splitSlash_append_slash,
        splitSlash_of_no_slash p (hns p (List.mem_cons_self p _)),
        ih (by simp) (fun r hr => hns r (List.mem_cons_of_mem p hr))]
      rfl

theorem normStep_good (ab : Bool) (acc : List (List Char)) (comp : List Char)
    (hacc : ∀ p ∈ acc, p ≠ [] ∧ '/' ∉ p) (hcomp : '/' ∉ comp) :
    ∀ p ∈ normStep ab acc comp, p ≠ [] ∧ '/' ∉ p := by
  intro p hp
  unfold normStep at hp
  split at hp
  · exact hacc p hp
  · next hne1 =>
    split at hp
    · next heq2 =>
      split at hp
      · exact hacc p (List.mem_of_mem_dropLast hp)
      · split at hp
        · rcases List.mem_append.mp hp with hold | hnew
          · exact hacc p hold
          · rw [List.mem_singleton.mp hnew]
            refine ⟨?_, hcomp⟩
            rw [heq2]
            simp
        · exact hacc p hp
    · rcases List.mem_append.mp hp with hold | hnew
      · exact hacc p hold
      · rw [List.mem_singleton.mp hnew]
        refine ⟨fun hnil => ?_, hcomp⟩
        rw [hnil] at hne1
        simp at hne1

theorem normFold_good (ab : Bool) (comps : List (List Char)) :
    ∀ acc : List (List Char), (∀ c ∈ comps, '/' ∉ c) → (∀ p ∈ acc, p ≠ [] ∧ '/' ∉ p) →
    ∀ p ∈ comps.foldl (normStep ab) acc, p ≠ [] ∧ '/' ∉ p := by
  induction comps with
  | nil => intro acc _ hacc; exact hacc
  | cons c rest ih =>
    intro acc hcomps hacc
    exact ih (normStep ab acc c) (fun x hx => hcomps x (List.mem_cons_of_mem c hx))
      (normStep_good ab acc c hacc (hcomps c (List.mem_cons_self c rest)))

theorem isAbsolutePath_of_no_slash (n : String) (h : '/' ∉ n.data) :
    isAbsolutePath n = false := by
  unfold isAbsolutePath
  cases hn : n.data with
  | nil => rfl
  | cons c rest =>
    have hc : c ≠ '/' := fun hh => h (by rw [hn, hh]; exact List.mem_cons_self _ _)
    simp [hc]

theorem ne_empty_of_data_ne_nil (n : String) (h : n.data ≠ []) : n ≠ "" := by
  intro he
  rw [he] at h
  exact h rfl

theorem normStep_nil (ab : Bool) (acc : List (List Char)) : normStep ab acc [] = acc := by
  unfold normStep
  simp

theorem resolvedPair_dir_name (cwd dir n : String) (hcwd : isAbsolutePath cwd = true)
    (hn : n ≠ "") (hnabs : isAbsolutePath n = false) :
    ∃ a : List Char, (resolvedPair cwd [dir, n]).1.data = a ++ '/' :: (n.data ++ ['/']) ∧
      (resolvedPair cwd [dir, n]).2 = true := by
  have hcne : cwd ≠ "" := by
    intro he
    rw [he] at hcwd
    exact absurd hcwd (by decide)
  have hg1 : gatherSegments [n] = (n ++ "/" ++ "", false) := by
    simp [gatherSegments, hn, hnabs]
  have hg2 : gatherSegments [dir, n] =
      if dir = "" then (n ++ "/" ++ "", false)
      else (dir ++ "/" ++ (n ++ "/" ++ ""), isAbsolutePath dir) := by
    unfold gatherSegments
    rw [hg1]
  by_cases hd : dir = ""
  · have hg3 : gatherSegments [dir, n] = (n ++ "/" ++ "", false) := by
      rw [hg2, if_pos hd]
    refine ⟨cwd.data, ?_, ?_⟩ <;>
      simp [resolvedPair, hg3, hcne, hcwd, String.data_append]
  · by_cases hda : isAbsolutePath dir = true
    · have hg3 : gatherSegments [dir, n] = (dir ++ "/" ++ (n ++ "/" ++ ""), true) := by
        rw [hg2, if_neg hd, hda]
      refine ⟨dir.data, ?_, ?_⟩ <;>
        simp [resolvedPair, hg3, String.data_append]
    · have hda2 : isAbsolutePath dir = false := Bool.eq_false_iff.mpr hda
      have hg3 : gatherSegments [dir, n] = (dir ++ "/" ++ (n ++ "/" ++ ""), false) := by
        rw [hg2, if_neg hd, hda2]
      refine ⟨cwd.data ++ '/' :: dir.data, ?_, ?_⟩ <;>
        simp [resolvedPair, hg3, hcne, hcwd, String.data_append]

theorem posixResolve_dir_name (cwd dir n : String) (hcwd : isAbsolutePath cwd = true)
    (hne : n.data ≠ []) (hslash : '/' ∉ n.data) (hdot : n.data ≠ ['.'])
    (hddot : n.data ≠ ['.', '.']) :
    ∃ accA : List (List Char), (∀ p ∈ accA, p ≠ [] ∧ '/' ∉ p) ∧
      posixResolve cwd [dir, n] = ⟨'/' :: joinSlash (accA ++ [n.data])⟩ := by
  have hn : n ≠ "" := ne_empty_of_data_ne_nil n hne
  have hnabs : isAbsolutePath n = false := isAbsolutePath_of_no_slash n hslash
  obtain ⟨a, hdata, habs2⟩ := resolvedPair_dir_name cwd dir n hcwd hn hnabs
  have hsplit : splitSlash (resolvedPair cwd [dir, n]).1.data =
      splitSlash a ++ ([n.data] ++ [[]]) := by
    rw [hdata, splitSlash_append_slash]
    congr 1
    have : n.data ++ ['/'] = n.data ++ '/' :: [] := rfl
    rw [this, splitSlash_append_slash, splitSlash_of_no_slash n.data hslash]
    rfl
  refine ⟨(splitSlash a).foldl (normStep false) [], ?_, ?_⟩
  · exact normFold_good false (splitSlash a) [] (mem_splitSlash_no_slash a) (by simp)
  · simp only [posixResolve]
    rw [habs2, hsplit]
    have h2 : normStep false ((splitSlash a).foldl (normStep false) []) n.data =
        ((splitSlash a).foldl (normStep false) []) ++ [n.data] := by
      unfold normStep
      rw [if_neg (by simp [hne, hdot]), if_neg hddot]
    simp [Bool.not_true, normStep_nil, h2]

theorem pathEnding_posixResolve (cwd dir n : String) (hcwd : isAbsolutePath cwd = true)
    (hne : n.data ≠ []) (hslash : '/' ∉ n.data) (hdot : n.data ≠ ['.'])
    (hddot : n.data ≠ ['.', '.']) :
    pathEnding (posixResolve cwd [dir, n]) = n := by
  obtain ⟨accA, hgood, heq⟩ := posixResolve_dir_name cwd dir n hcwd hne hslash hdot hddot
  rw [heq]
  unfold pathEnding
  have hparts_ne : accA ++ [n.data] ≠ [] := by simp
  have hparts_good : ∀ p ∈ accA ++ [n.data], '/' ∉ p := by
    intro p hp
    rcases List.mem_append.mp hp with h1 | h2
    · exact (hgood p h1).2
    · rw [List.mem_singleton.mp h2]
      exact hslash
  have hsj := splitSlash_joinSlash _ hparts_ne hparts_good
  have hcons : ∃ h t, accA ++ [n.data] = h :: t := by
    cases accA with
    | nil => exact ⟨n.data, [], rfl⟩
    | cons x xs => exact ⟨x, xs ++ [n.data], rfl⟩
  obtain ⟨h, t, hshape⟩ := hcons
  have h1 : splitSlash ('/' :: joinSlash (accA ++ [n.data])) = [] :: (accA ++ [n.data]) := by
    rw [splitSlash_cons_eq '/' _ (hsj.trans hshape), if_pos rfl, ← hshape]
  show (⟨(splitSlash (String.mk ('/' :: joinSlash (accA ++ [n.data]))).data).getLastD []⟩ : String) = n
  have hdata : (String.mk ('/' :: joinSlash (accA ++ [n.data]))).data =
      '/' :: joinSlash (accA ++ [n.data]) := rfl
  rw [hdata, h1]
  have hassoc : ([] : List Char) :: (accA ++ [n.data]) = (([] : List Char) :: accA) ++ [n.data] := rfl
  rw [hassoc, List.getLastD_concat]

/-- C9: the directory enumerator (`listDirectoryChildren` composed with
`extractFolderNamesSync`, as run by `listInstalledDependencies`) returns
exactly the child names that are directories and begin with a word
character, in order.  The hypotheses on the names (non-empty, no
separator, not `.`/`..`) are guarantees of `readdir`. -/
theorem claim_C9 (isDirectory : String → Bool) (readdirF : String → List String)
    (cwd : String) (opts : IProjectOptions)
    (hpm : opts.packageManager = "bower")
    (hcwd : isAbsolutePath cwd = true)
    (hnames : ∀ n ∈ readdirF (posixResolve cwd [opts.projectPath, "bower_components"]),
      n.data ≠ [] ∧ '/' ∉ n.data ∧ n.data ≠ ['.'] ∧ n.data ≠ ['.', '.']) :
    listInstalledDependencies isDirectory readdirF cwd opts =
      .ok ((readdirF (posixResolve cwd [opts.projectPath, "bower_components"])).filter
        (fun n => isDirectory (posixResolve cwd
          [posixResolve cwd [opts.projectPath, "bower_components"], n]) &&
          startsWithWordChar n)) := by
  unfold listInstalledDependencies
  rw [if_pos hpm]
  congr 1
  unfold extractFolderNamesSync listDirectoryContents extractFoldersSync extractPathEndingsSync
    filterDotFiles
  rw [List.filter_map
    (fun name => posixResolve cwd [posixResolve cwd [opts.projectPath, "bower_components"], name])
    (readdirF (posixResolve cwd [opts.projectPath, "bower_components"]))]
  rw [List.map_map]
  have hmapid : ((readdirF (posixResolve cwd [opts.projectPath, "bower_components"])).filter
      (isDirectory ∘ fun name =>
        posixResolve cwd [posixResolve cwd [opts.projectPath, "bower_components"], name])).map
      (pathEnding ∘ fun name =>
        posixResolve cwd [posixResolve cwd [opts.projectPath, "bower_components"], name]) =
      ((readdirF (posixResolve cwd [opts.projectPath, "bower_components"])).filter
      (isDirectory ∘ fun name =>
        posixResolve cwd [posixResolve cwd [opts.projectPath, "bower_components"], name])).map
      id := by
    apply List.map_congr_left
    intro n hnmem
    have hn := hnames n (List.mem_of_mem_filter hnmem)
    exact pathEnding_posixResolve cwd _ n hcwd hn.1 hn.2.1 hn.2.2.1 hn.2.2.2
  rw [hmapid, List.map_id, List.filter_filter]
  refine List.filter_congr (fun a _ => ?_)
  simp [Function.comp, Bool.and_comm]

/-- Witness for C9 at the spec's example: `[".git", "lodash",
"left-pad"]` with `.git` a directory enumerates to
`["lodash", "left-pad"]`. -/
theorem claim_C9_witness :
    ((⟨"/proj", "bower"⟩ : IProjectOptions).packageManager = "bower" ∧
     isAbsolutePath "/" = true ∧
     (∀ n ∈ (fun _ : String => [".git", "lodash", "left-pad"])
        (posixResolve "/" [(⟨"/proj", "bower"⟩ : IProjectOptions).projectPath, "bower_components"]),
       n.data ≠ [] ∧ '/' ∉ n.data ∧ n.data ≠ ['.'] ∧ n.data ≠ ['.', '.'])) ∧
    listInstalledDependencies (fun _ => true) (fun _ => [".git", "lodash", "left-pad"]) "/"
      ⟨"/proj", "bower"⟩ = .ok ["lodash", "left-pad"] :=
  ⟨⟨rfl, by decide, by decide⟩,
    (claim_C9 (fun _ => true) (fun _ => [".git", "lodash", "left-pad"]) "/" ⟨"/proj", "bower"⟩
      rfl (by decide) (by decide)).trans (by rfl)⟩

end WcmScanner
